import Mathlib

/-
Verification of the dungeon-builder script-chunk and Lua-binding layer
(crawl-ref: luadgn.cc, clua.h, mapdef.h).

The C++ code is embedded shallowly:
  * std::string values become Lean String / List Char;
  * C++ int / long become Int;
  * the FILE* byte stream of the chunk serializer becomes a list of
    stream items (one per writeByte / writeString / writeLong call);
  * the embedded Lua engine (clua.cc, outside this excerpt) is an
    abstract oracle structure, and the calls made into it are recorded
    as an event trace.
-/

/-- Modelled from the spec: the repository's libutil character classifier
used by trimming (isspace semantics: space, tab, newline, vertical tab,
form feed, carriage return); libutil.cc is not part of the excerpt. -/
def isSpaceC (c : Char) : Bool :=
  decide (c = ' ' ∨ c = '\t' ∨ c = '\n' ∨ c = '\r' ∨ c = Char.ofNat 11 ∨ c = Char.ofNat 12)

/-- Leading and trailing whitespace removal on character lists. -/
def trimC (l : List Char) : List Char :=
  ((l.dropWhile isSpaceC).reverse.dropWhile isSpaceC).reverse

/-- Modelled from the spec: libutil's trimmed_string (not in the excerpt):
removes leading and trailing whitespace. -/
def trimmed_string (s : String) : String :=
  String.mk (trimC s.toList)

/-- leads p s is true when p occurs at the very start of s
(std::string prefix test used by find). -/
def leads : List Char → List Char → Bool
  | [], _ => true
  | _ :: _, [] => false
  | a :: as, b :: bs => if a = b then leads as bs else false

/-- firstMatch pat s models std::string::find: the least index at which
pat occurs in s, none when absent. -/
def firstMatch (pat : List Char) : List Char → Option Nat
  | [] => if leads pat [] then some 0 else none
  | c :: t => if leads pat (c :: t) then some 0 else (firstMatch pat t).map (· + 1)

/-- findFromC s c i models std::string::find(c, i): least index ≥ i
holding character c. -/
def findFromC (s : List Char) (c : Char) (i : Nat) : Option Nat :=
  (firstMatch [c] (s.drop i)).map (· + i)

/-- containsC s pat: pat occurs somewhere in s (find != npos). -/
def containsC (s pat : List Char) : Bool :=
  (firstMatch pat s).isSome

/-- Fuel-driven splitter: cut s at every occurrence of sep. The fuel is
always supplied ≥ |s| + 1 which is enough for every cut. -/
def splitFuel (sep : List Char) : Nat → List Char → List (List Char)
  | 0, s => [s]
  | fuel + 1, s =>
    match firstMatch sep s with
    | none => [s]
    | some i => (s.take i) :: splitFuel sep fuel (s.drop (i + sep.length))

/-- Modelled from the spec: libutil's split_string (not in the excerpt):
splits on the separator, trims whitespace from each segment and drops
empty segments, as the multi-line error rewriting relies on. -/
def split_string (sep s : String) : List String :=
  (((splitFuel sep.toList (s.toList.length + 1) s.toList).map trimC).filter
    (fun seg => decide (seg ≠ []))).map String.mk

/-- Digit-accumulating core of atoi: consume decimal digits, stop at the
first non-digit. -/
def atoiDigits : List Char → Int → Int
  | [], acc => acc
  | c :: t, acc =>
    if c.isDigit then atoiDigits t (acc * 10 + ((c.toNat : Int) - 48)) else acc

/-- C atoi on a character list: skip leading whitespace, optional sign,
then decimal digits. -/
def atoiC (l : List Char) : Int :=
  match l.dropWhile isSpaceC with
  | '-' :: t => - atoiDigits t 0
  | '+' :: t => atoiDigits t 0
  | l1 => atoiDigits l1 0

/-- The dlua_chunk state (luadgn.cc / luadgn.h): original file name,
source text, compiled bytecode, context tag, first and last authored
line, last error text. -/
structure dlua_chunk where
  file : String
  chunk : String
  compiled : String
  context : String
  first : Int
  last : Int
  error : String
deriving DecidableEq

/-- dlua_chunk::clear: resets everything except the context tag. -/
def dlua_clear (c : dlua_chunk) : dlua_chunk :=
  { c with file := "", chunk := "", first := -1, last := -1, error := "", compiled := "" }

/-- The dlua_chunk constructor: clear state with the given context tag. -/
def mk_dlua_chunk (context : String) : dlua_chunk :=
  ⟨"", "", "", context, -1, -1, ""⟩

/-- dlua_chunk::set_file. -/
def set_file (c : dlua_chunk) (s : String) : dlua_chunk :=
  { c with file := s }

/-- dlua_chunk::add(line, s): record first on the first call, pad with
newlines up to the new line number, then append a space and the text. -/
def dlua_add (c : dlua_chunk) (line : Int) (s : String) : dlua_chunk :=
  let first := if c.first = -1 then line else c.first
  let nls : Nat := if line ≠ c.last ∧ c.last ≠ -1 then (line - c.last).toNat else 0
  { c with first := first,
           chunk := c.chunk ++ String.mk (List.replicate nls '\n') ++ " " ++ s,
           last := line }

/-- dlua_chunk::set_chunk: assigns the source text (and nothing else). -/
def set_chunk (c : dlua_chunk) (s : String) : dlua_chunk :=
  { c with chunk := s }

/-- dlua_chunk::empty: no bytecode and the source trims to nothing. -/
def dlua_empty (c : dlua_chunk) : Bool :=
  decide (c.compiled = "") && decide (trimmed_string c.chunk = "")

/-- The engine's diagnostic marker for this chunk: [string "context"]: . -/
def contextm (ck : dlua_chunk) : List Char :=
  ("[string \"" ++ ck.context ++ "\"]:").toList

/-- dlua_chunk member rewrite_chunk_prefix: replace the internal line number n
after the context marker by n + first - 1 and the marker itself by the
file name (or the context when no file name is known). -/
def rewrite_chunk_prefix (ck : dlua_chunk) (line : String) : String :=
  let s := line.toList
  let cm := contextm ck
  match firstMatch cm s with
  | none => line
  | some ps =>
    let lns := ps + cm.length
    let s1 := match findFromC s ':' lns with
      | none => s
      | some pe =>
        s.take lns ++ (toString (atoiC ((s.drop lns).take (pe - lns)) + ck.first - 1)).toList
          ++ s.drop pe
    String.mk (s1.take ps ++ (if ck.file = "" then ck.context else ck.file).toList
      ++ ':' :: s1.drop (ps + cm.length))

/-- dlua_chunk member get_chunk_prefix: the rewritten line truncated at its
second colon. -/
def get_chunk_prefix (ck : dlua_chunk) (sorig : String) : String :=
  let s := ( rewrite_chunk_prefix ck sorig).toList
  match findFromC s ':' 0 with
  | none => String.mk s
  | some cpos =>
    match findFromC s ':' (cpos + 1) with
    | none => String.mk s
    | some cnpos => String.mk (s.take cnpos)

/-- dlua_chunk::rewrite_chunk_errors: returns whether the chunk is
mentioned, and the rewritten message. When the marker is not at
position 0 the message is split into lines and the loop walks indices
2 .. lines.size() - 2 exactly as the C++ for loop does. -/
def rewrite_chunk_errors (ck : dlua_chunk) (s : String) : Bool × String :=
  let cm := contextm ck
  match firstMatch cm s.toList with
  | none => (false, s)
  | some dlwhere =>
    if dlwhere = 0 then (true, rewrite_chunk_prefix ck s)
    else
      let lines := split_string "\n" s
      let size := lines.length - 1
      let step := fun (acc : String × Bool) (i : Nat) =>
        let st := lines.getD i ""
        if containsC st.toList ck.context.toList then
          if acc.2 then (acc.1 ++ "\n" ++ rewrite_chunk_prefix ck st, acc.2)
          else ( get_chunk_prefix ck st ++ ": " ++ acc.1, true)
        else acc
      let r := (List.range' 2 (size - 2)).foldl step (lines.headD "", false)
      (true, r.1)

/-- One item of the binary chunk stream: a tag byte, a length-prefixed
string, or a long. Modelled from the spec: the byte-level writeByte /
writeString / writeLong primitives (files.cc) are not in the excerpt;
the spec fixes the field sequence, which is what the stream records. -/
inductive StreamItem where
  | sbyte (b : Nat) : StreamItem
  | sstr (s : String) : StreamItem
  | slong (n : Int) : StreamItem
deriving DecidableEq

/-- Modelled from the spec: the payload size cap LUA_CHUNK_MAX_SIZE
(luadgn.h, not in the excerpt); the spec only states the payload is
length-capped, so a concrete large bound is fixed here. -/
def LUA_CHUNK_MAX_SIZE : Nat := 1048576

/-- A string clipped to a maximum length, as a length-capped
writeString/readString pair stores it. -/
def capString (cap : Nat) (s : String) : String :=
  if s.length ≤ cap then s else String.mk (s.toList.take cap)

/-- dlua_chunk::write: tag byte (0 empty, 1 source, 2 compiled), then for
non-empty chunks the capped payload, the file name and the first line. -/
def dlua_write (c : dlua_chunk) : List StreamItem :=
  if dlua_empty c then [StreamItem.sbyte 0]
  else if c.compiled ≠ "" then
    [StreamItem.sbyte 2, StreamItem.sstr (capString LUA_CHUNK_MAX_SIZE c.compiled),
     StreamItem.sstr c.file, StreamItem.slong c.first]
  else
    [StreamItem.sbyte 1, StreamItem.sstr (capString LUA_CHUNK_MAX_SIZE c.chunk),
     StreamItem.sstr c.file, StreamItem.slong c.first]

/-- dlua_chunk::read: clear the receiver, dispatch on the tag byte, then
read payload, file name and first line; none on a malformed stream. -/
def dlua_read (c : dlua_chunk) (st : List StreamItem) : Option (dlua_chunk × List StreamItem) :=
  let c0 := dlua_clear c
  match st with
  | StreamItem.sbyte t :: rest =>
    if t = 0 then some (c0, rest)
    else if t = 1 then
      match rest with
      | StreamItem.sstr payload :: StreamItem.sstr fl :: StreamItem.slong fi :: rest2 =>
        some ({ c0 with chunk := capString LUA_CHUNK_MAX_SIZE payload, file := fl, first := fi },
          rest2)
      | _ => none
    else if t = 2 then
      match rest with
      | StreamItem.sstr payload :: StreamItem.sstr fl :: StreamItem.slong fi :: rest2 =>
        some ({ c0 with compiled := capString LUA_CHUNK_MAX_SIZE payload, file := fl, first := fi },
          rest2)
      | _ => none
    else none
  | _ => none

/-- Modelled from the spec: the embedded engine (clua.cc is not in the
excerpt) reduced to its loader interface: loadbuffer/loadstring return an
error code and leave an error message in the wrapper; lua_dump yields a
return code, the dumped bytes and an optional error string; callfn
returns success and an error message. -/
structure CLuaE where
  error : String
  lb : String → String → Int × String
  ls : String → String → Int × String
  cf : Option String → Bool × String
  dres : Int
  dbytes : String
  dmsg : Option String

/-- The calls a chunk operation makes into the engine, in order. -/
inductive LuaEvent where
  | evLoadbuffer (buf ctx : String) : LuaEvent
  | evLoadstring (src ctx : String) : LuaEvent
  | evDump : LuaEvent
  | evCallfn (fn : Option String) : LuaEvent
deriving DecidableEq

/-- dlua_chunk::load: feed stored bytecode to loadbuffer when present;
return -1000 for an empty chunk; otherwise loadstring the source, dump
the compiled function, store the bytecode and clear the source. Returns
(error code, chunk after, engine after, engine calls made). -/
def dlua_load (ck : dlua_chunk) (interp : CLuaE) : Int × dlua_chunk × CLuaE × List LuaEvent :=
  if ck.compiled ≠ "" then
    let r := interp.lb ck.compiled ck.context
    (r.1, { ck with error := r.2 }, { interp with error := r.2 },
     [LuaEvent.evLoadbuffer ck.compiled ck.context])
  else if dlua_empty ck then
    (-1000, { ck with chunk := "" }, interp, [])
  else
    let r := interp.ls ck.chunk ck.context
    let ck2 := { ck with error := r.2 }
    if r.1 ≠ 0 then (r.1, ck2, { interp with error := r.2 },
      [LuaEvent.evLoadstring ck.chunk ck.context])
    else
      let ck3 := if interp.dres ≠ 0 then
          { ck2 with error := interp.dmsg.getD "Unknown error compiling chunk" }
        else ck2
      (interp.dres, { ck3 with compiled := interp.dbytes, chunk := "" },
       { interp with error := r.2 },
       [LuaEvent.evLoadstring ck.chunk ck.context, LuaEvent.evDump])

/-- dlua_chunk::load_call: load, treat -1000 (empty) as success without
calling, propagate load errors, otherwise invoke the named function. -/
def dlua_load_call (ck : dlua_chunk) (interp : CLuaE) (fn : Option String) :
    Int × dlua_chunk × CLuaE × List LuaEvent :=
  let r := dlua_load ck interp
  if r.1 = -1000 then (0, r.2.1, r.2.2.1, r.2.2.2)
  else if r.1 ≠ 0 then r
  else
    let cr := r.2.2.1.cf fn
    ((if cr.1 then 0 else 1), { r.2.1 with error := cr.2 },
     { r.2.2.1 with error := cr.2 }, r.2.2.2 ++ [LuaEvent.evCallfn fn])

/-- The inner loop of dgn_add_depths as written: for (j = 0, size; i < size; ++i)
pushes level_range::parse(frags[j]) with j stuck at 0 while advancing the
OUTER index i; a parse failure raises a Lua error (modelled as Except.error). -/
def dgn_inner {LR : Type} (parse : String → Except String LR) (frag0 : String)
    (size : Nat) : Nat → Nat → List LR → Except String (Nat × List LR)
  | 0, i, g => Except.ok (i, g)
  | fuel + 1, i, g =>
    if i < size then
      match parse frag0 with
      | Except.error e => Except.error e
      | Except.ok v => dgn_inner parse frag0 size fuel (i + 1) (g ++ [v])
    else Except.ok (i, g)

/-- The outer loop of dgn_add_depths: for (i = s; i <= e; ++i), where the
body runs the inner loop above (which itself mutates i). The Lua stack is
the list of argument strings, 1-indexed. -/
def dgn_outer {LR : Type} (parse : String → Except String LR) (stack : List String)
    (e : Nat) : Nat → Nat → List LR → Except String (List LR)
  | 0, _, g => Except.ok g
  | fuel + 1, i, g =>
    if i ≤ e then
      let frags := split_string "," (stack.getD (i - 1) "")
      match dgn_inner parse (frags.headD "") frags.length frags.length i g with
      | Except.error er => Except.error er
      | Except.ok p => dgn_outer parse stack e fuel (p.1 + 1) p.2
    else Except.ok g

/-- dgn_add_depths(drs, ls, s, e) as written in luadgn.cc: the supplied
list drs is never touched; every push lands on the global
dgn_default_depths (second component). level_range::parse (mapdef.cc,
not in the excerpt) is an abstract parameter. -/
def dgn_add_depths {LR : Type} (parse : String → Except String LR) (stack : List String)
    (s e : Nat) (drs gdepths : List LR) : Except String (List LR × List LR) :=
  (dgn_outer parse stack e (e + 2 - s) s gdepths).map (fun g => (drs, g))

/-- A grid coordinate (coord_def). -/
structure GCoord where
  x : Int
  y : Int
deriving DecidableEq

/-- The four orthogonal neighbours of a cell. -/
def nbrs (c : GCoord) : List GCoord :=
  [⟨c.x + 1, c.y⟩, ⟨c.x - 1, c.y⟩, ⟨c.x, c.y + 1⟩, ⟨c.x, c.y - 1⟩]

/-- map_def::map_bounds_check: 0 ≤ x < width, 0 ≤ y < height. -/
def inBoundsB (w h : Nat) (c : GCoord) : Bool :=
  decide (0 ≤ c.x) && decide (c.x < (w : Int)) && decide (0 ≤ c.y) && decide (c.y < (h : Int))

/-- A cell the flood fill may stand on: in bounds and traversable. -/
def passableB (w h : Nat) (trav : GCoord → Bool) (c : GCoord) : Bool :=
  inBoundsB w h c && trav c

/-- All in-bounds cells of a w × h grid. -/
def cellsList (w h : Nat) : List GCoord :=
  (List.range h).flatMap (fun y => (List.range w).map (fun x => ⟨Int.ofNat x, Int.ofNat y⟩))

/-- One expansion round of the flood fill: a cell is kept when it is
passable and either already visited or adjacent to a visited cell. -/
def floodStep (P : GCoord → Bool) (univ vis : List GCoord) : List GCoord :=
  univ.filter (fun c => P c && (decide (c ∈ vis) || decide (∃ d ∈ nbrs c, d ∈ vis)))

/-- Iterated expansion from the start point. -/
def floodIter (P : GCoord → Bool) (univ : List GCoord) (start : GCoord) : Nat → List GCoord
  | 0 => univ.filter (fun c => P c && decide (c = start))
  | n + 1 => floodStep P univ (floodIter P univ start n)

/-- Modelled from the spec: the generic flood-fill checker (flood_find,
not in the excerpt) instantiated as dgn_points_connected uses it: the set
of cells reachable from the start point over passable cells; iterating
|cells| + 1 rounds reaches the fixed point. -/
def flood_reachable (w h : Nat) (trav : GCoord → Bool) (start : GCoord) : List GCoord :=
  floodIter (passableB w h trav) (cellsList w h) start ((cellsList w h).length + 1)

/-- dgn.points_connected: every seed point is reachable from the start. -/
def points_connected (w h : Nat) (trav : GCoord → Bool) (start : GCoord)
    (seeds : List GCoord) : Bool :=
  seeds.all (fun p => decide (p ∈ flood_reachable w h trav start))

/-- Reachability along passable cells: the start is reachable when it is
itself passable, and reachability extends across one neighbour step onto
a passable cell. -/
inductive FReach (P : GCoord → Bool) (s : GCoord) : GCoord → Prop where
  | base : P s = true → FReach P s s
  | step : ∀ {c d : GCoord}, FReach P s c → d ∈ nbrs c → P d = true → FReach P s d

/-- The CLua call-depth bookkeeping fields (clua.h). -/
structure CLuaDepths where
  mixed_call_depth : Int
  lua_call_depth : Int
  max_mixed_call_depth : Int
  max_lua_call_depth : Int
deriving DecidableEq

/-- A nested script invocation structure: a leaf call, or a call that
performs one nested invocation. -/
inductive ScriptCall where
  | leafCall : ScriptCall
  | nestCall (inner : ScriptCall) : ScriptCall

/-- Sandbox fault conditions relevant to call-depth governance. -/
inductive SandboxFault where
  | stackOverflow : SandboxFault
deriving DecidableEq

/-- The ceiling test: either depth has reached its configured maximum. -/
def depth_guard (st : CLuaDepths) : Bool :=
  decide (st.max_mixed_call_depth ≤ st.mixed_call_depth)
    || decide (st.max_lua_call_depth ≤ st.lua_call_depth)

/-- Modelled from the spec: the Sandboxed Wrapper's script invocation
(clua.cc, not in the excerpt): entering a script checks the depth
ceilings and fails with StackOverflow instead of recursing; otherwise
both depths are incremented for the nested invocation and restored on
exit. -/
def script_invoke (st : CLuaDepths) : ScriptCall → Except SandboxFault CLuaDepths
  | ScriptCall.leafCall =>
    if depth_guard st then Except.error SandboxFault.stackOverflow else Except.ok st
  | ScriptCall.nestCall inner =>
    if depth_guard st then Except.error SandboxFault.stackOverflow
    else
      match script_invoke { st with mixed_call_depth := st.mixed_call_depth + 1,
                                    lua_call_depth := st.lua_call_depth + 1 } inner with
      | Except.error f => Except.error f
      | Except.ok _ => Except.ok st

/-- Folding dlua_chunk::add over a list of (line, text) calls. -/
def addAll (st : dlua_chunk) (cs : List (Int × String)) : dlua_chunk :=
  cs.foldl (fun a c => dlua_add a c.1 c.2) st

/-- The physical lines of a character list: split at every newline. -/
def splitNl : List Char → List (List Char)
  | [] => [[]]
  | c :: t =>
    if c = '\n' then [] :: splitNl t
    else match splitNl t with
      | [] => [[c]]
      | h :: r => (c :: h) :: r

/-- The physical lines of the stored source text of a chunk. -/
def physLines (c : dlua_chunk) : List (List Char) :=
  splitNl c.chunk.toList

/-- The text stored for one authored line: the concatenation, in call
order, of a space followed by each text added at that line number. -/
def textAt (cs : List (Int × String)) (ln : Int) : List Char :=
  (cs.filterMap (fun c => if c.1 = ln then some (' ' :: c.2.toList) else none)).flatten

/-- The line number of the first add call. -/
def headLine (cs : List (Int × String)) : Int :=
  (cs.headD (0, "")).1

/-- The line number of the last add call. -/
def lastLine (cs : List (Int × String)) : Int :=
  (cs.getLastD (0, "")).1

/-- The physical lines the chunk should hold after adding cs: one entry
per authored line from f to l. -/
def expectedLines (cs : List (Int × String)) (f l : Int) : List (List Char) :=
  (List.range (l - f + 1).toNat).map (fun k => textAt cs (f + Int.ofNat k))

/-- Line numbers never decrease along the call sequence. -/
def nondecLines (cs : List (Int × String)) : Prop :=
  List.Chain' (fun a b => a.1 ≤ b.1) cs

/-- All line numbers are nonnegative. -/
def nonnegLines (cs : List (Int × String)) : Prop :=
  ∀ c ∈ cs, 0 ≤ c.1

/-- No added text contains a newline itself. -/
def singleLineTexts (cs : List (Int × String)) : Prop :=
  ∀ c ∈ cs, ∀ ch ∈ c.2.toList, ch ≠ '\n'

/-- A sample compiled chunk used by closed witness statements. -/
def ck_compiled_sample : dlua_chunk :=
  ⟨"orig.lua", "", "BC", "ctx", 5, 5, ""⟩

/-- A sample chunk holding only whitespace source. -/
def ck_blank_sample : dlua_chunk :=
  ⟨"", "  \n ", "", "c", -1, -1, ""⟩

/-- The chunk of the line-remapping example: context chunk1, offset 5. -/
def ck_remap_sample : dlua_chunk :=
  ⟨"orig.lua", "", "", "chunk1", 5, 5, ""⟩

/-- A chunk with context c and file f.lua used in error-rewriting tests. -/
def ck_err_sample : dlua_chunk :=
  ⟨"f.lua", "", "", "c", 5, 5, ""⟩

/-- A benign engine oracle for witness statements. -/
def clua_sample : CLuaE :=
  ⟨"", fun _ _ => (0, ""), fun _ _ => (0, ""), fun _ => (true, ""), 0, "BYTES", none⟩

/-! Helper lemmas shared by several claim proofs. -/

theorem toList_mk (l : List Char) : (String.mk l).toList = l := rfl

theorem toList_append (a b : String) : (a ++ b).toList = a.toList ++ b.toList := by
  cases a
  cases b
  rfl

theorem leads_refl_append (p rest : List Char) : leads p (p ++ rest) = true := by
  induction p with
  | nil => rfl
  | cons c t ih => simp [leads, ih]

theorem firstMatch_cons_ne (p : List Char) (c : Char) (t : List Char)
    (h : leads p (c :: t) = false) :
    firstMatch p (c :: t) = (firstMatch p t).map (· + 1) := by
  simp [firstMatch, h]

theorem firstMatch_single (x : Char) (l t : List Char) (h : ∀ c ∈ l, c ≠ x) :
    firstMatch [x] (l ++ x :: t) = some l.length := by
  induction l with
  | nil => simp [firstMatch, leads]
  | cons c l' ih =>
    have hc : c ≠ x := h c (List.mem_cons_self c l')
    have hx : ¬(x = c) := fun e => hc e.symm
    have hl : leads [x] (c :: (l' ++ x :: t)) = false := by
      simp [leads, hx]
    rw [List.cons_append, firstMatch_cons_ne _ _ _ hl,
      ih (fun d hd => h d (List.mem_cons_of_mem c hd))]
    rfl

theorem foldl_congr_mem {α β : Type} (l : List β) (f g : α → β → α) (a : α)
    (h : ∀ acc, ∀ x ∈ l, f acc x = g acc x) : l.foldl f a = l.foldl g a := by
  induction l generalizing a with
  | nil => rfl
  | cons x t ih =>
    rw [List.foldl_cons, List.foldl_cons, h a x (List.mem_cons_self x t)]
    exact ih _ (fun acc y hy => h acc y (List.mem_cons_of_mem x hy))

theorem trimC_of_all_space (l : List Char) (h : ∀ c ∈ l, isSpaceC c = true) :
    trimC l = [] := by
  unfold trimC
  rw [List.dropWhile_eq_nil_iff.mpr h]
  rfl

/-! C4: the source setter and the source/compiled exclusivity invariant. -/

/-- C4 counterexample: set_chunk on a chunk holding compiled bytecode
does NOT clear the bytecode; both source and bytecode are non-empty
afterwards, violating the claimed invariant. -/
theorem c4_counterexample :
    (set_chunk ⟨"", "", "BC", "ctx", -1, -1, ""⟩ "x = 1").compiled = "BC" ∧
    (set_chunk ⟨"", "", "BC", "ctx", -1, -1, ""⟩ "x = 1").chunk = "x = 1" ∧
    ¬((set_chunk ⟨"", "", "BC", "ctx", -1, -1, ""⟩ "x = 1").compiled = "" ∨
      (set_chunk ⟨"", "", "BC", "ctx", -1, -1, ""⟩ "x = 1").chunk = "") := by
  refine ⟨rfl, rfl, ?_⟩
  intro h
  cases h with
  | inl h => exact absurd h (by decide)
  | inr h => exact absurd h (by decide)

/-- C4 amended: set_chunk assigns the new source text and leaves every
other field, in particular the compiled bytecode, untouched; hence the
at-most-one-of-source-and-bytecode invariant survives set_chunk only on
chunks whose bytecode is already empty. -/
theorem c4_set_chunk_keeps_compiled : ∀ (c : dlua_chunk) (s : String),
    (set_chunk c s).chunk = s ∧ (set_chunk c s).compiled = c.compiled ∧
    (set_chunk c s).first = c.first ∧ (set_chunk c s).file = c.file ∧
    (set_chunk c s).context = c.context ∧
    (c.compiled = "" → ((set_chunk c s).compiled = "" ∨ (set_chunk c s).chunk = "")) :=
  fun c s => ⟨rfl, rfl, rfl, rfl, rfl, fun h => Or.inl h⟩

/-- C4 amended witness at a concrete compiled chunk and source text. -/
theorem c4_set_chunk_keeps_compiled_witness :
    (set_chunk ⟨"", "old", "", "ctx", -1, -1, ""⟩ "new").chunk = "new" ∧
    (set_chunk ⟨"", "old", "", "ctx", -1, -1, ""⟩ "new").compiled = "" := by
  have h := c4_set_chunk_keeps_compiled ⟨"", "old", "", "ctx", -1, -1, ""⟩ "new"
  exact ⟨h.1, h.2.1⟩

/-! C6: the depth-accumulation loops of dgn_add_depths. -/

/-- C6: evaluating dgn_add_depths as written shows the defect the spec
flags: with one argument holding two comma fragments only the first
fragment is parsed (once) and it is appended to the global default-depth
list, not to drs; with two single-fragment arguments nothing at all is
appended. The claim's intended behaviour (each fragment of each argument
parsed and appended to drs) does not hold of the code. -/
theorem c6_dgn_add_depths_eval :
    @dgn_add_depths String Except.ok ["D:1-5,D:8"] 1 1 [] [] = Except.ok ([], ["D:1-5"]) ∧
    @dgn_add_depths String Except.ok ["D:1-5", "D:8"] 1 2 [] [] = Except.ok ([], []) :=
  ⟨rfl, rfl⟩

/-! C8: call-depth ceilings on the sandboxed wrapper. -/

/-- C8: when either call depth has reached its configured ceiling, the
next script invocation fails with StackOverflow instead of recursing. -/
theorem c8_depth_ceiling_stack_overflow : ∀ (st : CLuaDepths) (k : ScriptCall),
    st.max_mixed_call_depth ≤ st.mixed_call_depth ∨
      st.max_lua_call_depth ≤ st.lua_call_depth →
    script_invoke st k = Except.error SandboxFault.stackOverflow := by
  intro st k h
  have hg : depth_guard st = true := by
    unfold depth_guard
    cases h with
    | inl h => simp [h]
    | inr h => simp [h]
  cases k with
  | leafCall => simp [script_invoke, hg]
  | nestCall inner => simp [script_invoke, hg]

/-- C8 witness: a wrapper at its mixed-depth ceiling rejects the next
nested invocation. -/
theorem c8_depth_ceiling_stack_overflow_witness :
    script_invoke ⟨10, 0, 10, 50⟩ (ScriptCall.nestCall ScriptCall.leafCall) =
      Except.error SandboxFault.stackOverflow :=
  c8_depth_ceiling_stack_overflow ⟨10, 0, 10, 50⟩ _ (Or.inl (by decide))

/-! C9 and C5: dlua_chunk::load and load_call against the engine. -/

theorem dlua_empty_of_blank (ck : dlua_chunk) (h1 : ck.compiled = "")
    (h2 : ∀ c ∈ ck.chunk.toList, isSpaceC c = true) : dlua_empty ck = true := by
  unfold dlua_empty trimmed_string
  rw [h1, trimC_of_all_space _ h2]
  rfl

/-- C9: a chunk with no bytecode and all-whitespace source counts as
empty: load returns -1000 making no engine call, and load_call returns 0
without loading or invoking the named function. -/
theorem c9_empty_chunk_load : ∀ (ck : dlua_chunk) (interp : CLuaE) (fn : Option String),
    ck.compiled = "" → (∀ c ∈ ck.chunk.toList, isSpaceC c = true) →
    (dlua_load ck interp).1 = -1000 ∧ (dlua_load ck interp).2.2.2 = [] ∧
    (dlua_load_call ck interp fn).1 = 0 ∧ (dlua_load_call ck interp fn).2.2.2 = [] := by
  intro ck interp fn h1 h2
  have hemp : dlua_empty ck = true := dlua_empty_of_blank ck h1 h2
  have hnc : ¬(ck.compiled ≠ "") := fun h => h h1
  have hload : dlua_load ck interp = (-1000, { ck with chunk := "" }, interp, []) := by
    unfold dlua_load
    rw [if_neg hnc, if_pos hemp]
  refine ⟨by rw [hload], by rw [hload], ?_, ?_⟩
  · unfold dlua_load_call
    rw [hload]
    simp
  · unfold dlua_load_call
    rw [hload]
    simp

/-- C9 witness: a chunk whose source is whitespace only. -/
theorem c9_empty_chunk_load_witness :
    (dlua_load ck_blank_sample clua_sample).1 = -1000 ∧
    (dlua_load ck_blank_sample clua_sample).2.2.2 = [] ∧
    (dlua_load_call ck_blank_sample clua_sample (some "main")).1 = 0 ∧
    (dlua_load_call ck_blank_sample clua_sample (some "main")).2.2.2 = [] :=
  c9_empty_chunk_load ck_blank_sample clua_sample (some "main") (by decide) (by decide)

/-- C5: loading is memoizing and one-way. A chunk holding bytecode is fed
to the engine's loadbuffer verbatim — the only engine call — and its
stored state (source, bytecode, file, first, context) is unchanged; a
chunk in source state whose load returns success ends up holding the
dumped bytecode with its source text cleared. -/
theorem c5_load_memoizing : ∀ (ck : dlua_chunk) (interp : CLuaE),
    (ck.compiled ≠ "" →
      (dlua_load ck interp).2.1.compiled = ck.compiled ∧
      (dlua_load ck interp).2.1.chunk = ck.chunk ∧
      (dlua_load ck interp).2.1.file = ck.file ∧
      (dlua_load ck interp).2.1.first = ck.first ∧
      (dlua_load ck interp).2.1.context = ck.context ∧
      (dlua_load ck interp).2.2.2 = [LuaEvent.evLoadbuffer ck.compiled ck.context]) ∧
    (ck.compiled = "" → (dlua_load ck interp).1 = 0 →
      (dlua_load ck interp).2.1.compiled = interp.dbytes ∧
      (dlua_load ck interp).2.1.chunk = "") := by
  intro ck interp
  constructor
  · intro h
    unfold dlua_load
    rw [if_pos h]
    exact ⟨rfl, rfl, rfl, rfl, rfl, rfl⟩
  · intro h he
    have hnc : ¬(ck.compiled ≠ "") := fun hx => hx h
    by_cases hemp : dlua_empty ck = true
    · exfalso
      have : (dlua_load ck interp).1 = -1000 := by
        unfold dlua_load
        rw [if_neg hnc, if_pos hemp]
      rw [this] at he
      exact absurd he (by decide)
    · by_cases hls : (interp.ls ck.chunk ck.context).1 ≠ 0
      · exfalso
        have : (dlua_load ck interp).1 = (interp.ls ck.chunk ck.context).1 := by
          unfold dlua_load
          rw [if_neg hnc, if_neg hemp, if_pos hls]
        rw [this] at he
        exact hls he
      · have : dlua_load ck interp =
            (interp.dres,
             { (if interp.dres ≠ 0 then
                  { { ck with error := (interp.ls ck.chunk ck.context).2 } with
                      error := interp.dmsg.getD "Unknown error compiling chunk" }
                else { ck with error := (interp.ls ck.chunk ck.context).2 }) with
                compiled := interp.dbytes, chunk := "" },
             { interp with error := (interp.ls ck.chunk ck.context).2 },
             [LuaEvent.evLoadstring ck.chunk ck.context, LuaEvent.evDump]) := by
          unfold dlua_load
          rw [if_neg hnc, if_neg hemp, if_neg hls]
        rw [this]
        exact ⟨rfl, rfl⟩

/-- C5 witness: a compiled sample chunk loaded against a benign engine. -/
theorem c5_load_memoizing_witness :
    (dlua_load ck_compiled_sample clua_sample).2.1.compiled = "BC" ∧
    (dlua_load ck_compiled_sample clua_sample).2.1.chunk = "" ∧
    (dlua_load ck_compiled_sample clua_sample).2.2.2 = [LuaEvent.evLoadbuffer "BC" "ctx"] := by
  have h := (c5_load_memoizing ck_compiled_sample clua_sample).1 (by decide)
  exact ⟨h.1, h.2.1, h.2.2.2.2.2⟩

/-! C1: binary round trip of a compiled chunk. -/

/-- C1: writing a chunk in compiled state (non-empty bytecode, within the
serializer's size cap) and reading the stream back into any receiver
reproduces the bytecode payload, the file name and the first-line offset
exactly, consuming the whole stream. -/
theorem c1_write_read_roundtrip : ∀ (c r : dlua_chunk),
    c.compiled ≠ "" → c.compiled.length ≤ LUA_CHUNK_MAX_SIZE →
    dlua_read r (dlua_write c) =
      some ({ dlua_clear r with compiled := c.compiled, file := c.file, first := c.first },
        []) := by
  intro c r h1 h2
  have hemp : ¬(dlua_empty c = true) := by
    unfold dlua_empty
    simp [h1]
  have hcap : capString LUA_CHUNK_MAX_SIZE c.compiled = c.compiled := by
    unfold capString
    rw [if_pos h2]
  have hw : dlua_write c =
      [StreamItem.sbyte 2, StreamItem.sstr c.compiled, StreamItem.sstr c.file,
       StreamItem.slong c.first] := by
    unfold dlua_write
    rw [if_neg hemp, if_pos h1, hcap]
  rw [hw]
  unfold dlua_read
  simp [hcap]

/-- C1 witness: a concrete compiled chunk round-trips through the binary
format. -/
theorem c1_write_read_roundtrip_witness :
    dlua_read (mk_dlua_chunk "r") (dlua_write ck_compiled_sample) =
      some ({ dlua_clear (mk_dlua_chunk "r") with
              compiled := ck_compiled_sample.compiled,
              file := ck_compiled_sample.file,
              first := ck_compiled_sample.first }, []) :=
  c1_write_read_roundtrip ck_compiled_sample (mk_dlua_chunk "r") (by decide) (by decide)

/-! C2: rewriting a single error line. -/

/-- C2: on a line whose (first) occurrence of the chunk's context marker
is followed by a line number and a colon, rewrite_chunk_prefix replaces
the internal line number n by n + first - 1 and the [string "context"]:
marker by the stored file name (or the context tag itself when the file
name is empty) followed by a colon; everything else is kept. -/
theorem c2_rewrite_prefix_line_remap : ∀ (ck : dlua_chunk) (pre num rest : List Char),
    firstMatch (contextm ck) (pre ++ contextm ck ++ num ++ ':' :: rest) = some pre.length →
    (∀ c ∈ num, c ≠ ':') →
    rewrite_chunk_prefix ck (String.mk (pre ++ contextm ck ++ num ++ ':' :: rest)) =
      String.mk (pre ++ (if ck.file = "" then ck.context else ck.file).toList
        ++ ':' :: (toString (atoiC num + ck.first - 1)).toList ++ ':' :: rest) := by
  intro ck pre num rest hfm hnc
  have hassoc : pre ++ contextm ck ++ num ++ ':' :: rest
      = (pre ++ contextm ck) ++ (num ++ ':' :: rest) := by
    simp [List.append_assoc]
  have hlen : (pre ++ contextm ck).length = pre.length + (contextm ck).length := by
    rw [List.length_append]
  have hdrop : (pre ++ contextm ck ++ num ++ ':' :: rest).drop
      (pre.length + (contextm ck).length) = num ++ ':' :: rest := by
    rw [hassoc, List.drop_left' hlen]
  have hfind : findFromC (pre ++ contextm ck ++ num ++ ':' :: rest) ':'
      (pre.length + (contextm ck).length)
      = some (num.length + (pre.length + (contextm ck).length)) := by
    unfold findFromC
    rw [hdrop, firstMatch_single ':' num rest hnc]
    rfl
  have htakelns : (pre ++ contextm ck ++ num ++ ':' :: rest).take
      (pre.length + (contextm ck).length) = pre ++ contextm ck := by
    rw [hassoc, List.take_left' hlen]
  have hdroppe : (pre ++ contextm ck ++ num ++ ':' :: rest).drop
      (num.length + (pre.length + (contextm ck).length)) = ':' :: rest := by
    rw [Nat.add_comm, ← List.drop_drop, hdrop, List.drop_left' rfl]
  have hfinaldrop : (pre ++ contextm ck ++ (toString (atoiC num + ck.first - 1)).toList
      ++ ':' :: rest).drop (pre.length + (contextm ck).length)
      = (toString (atoiC num + ck.first - 1)).toList ++ ':' :: rest := by
    rw [show pre ++ contextm ck ++ (toString (atoiC num + ck.first - 1)).toList ++ ':' :: rest
        = (pre ++ contextm ck) ++ ((toString (atoiC num + ck.first - 1)).toList ++ ':' :: rest)
      by simp [List.append_assoc], List.drop_left' hlen]
  simp only [ rewrite_chunk_prefix, toList_mk, hfm]
  simp only [hfind, hdrop, htakelns, hdroppe]
  rw [Nat.add_sub_cancel, List.take_left num (':' :: rest)]
  rw [hfinaldrop]
  simp only [List.append_assoc]
  rw [List.take_left]
  simp [List.cons_append]

/-- C2 witness: context chunk1, offset 5, internal line 3 is reported at
authored line 7 under the original file name, as the spec's example
states. -/
theorem c2_rewrite_prefix_line_remap_witness :
    rewrite_chunk_prefix ck_remap_sample "[string \"chunk1\"]:3: bad value"
      = "orig.lua:7: bad value" := by
  have h := c2_rewrite_prefix_line_remap ck_remap_sample [] ['3'] " bad value".toList
    (by decide) (by decide)
  exact h

/-! C3: multi-line error rewriting. -/

/-- C3 counterexample: in the three-line message below the only line
referencing the context tag is line index 1, yet the result is just the
first line "err", not the claimed prefix built from the rewritten
matching line: the matching line is skipped entirely. -/
theorem c3_counterexample :
    rewrite_chunk_errors ck_err_sample "err\n[string \"c\"]:3: bad\ntail" = (true, "err") ∧
    "err" ≠ get_chunk_prefix ck_err_sample "[string \"c\"]:3: bad" ++ ": " ++ "err" := by
  constructor
  · decide
  · decide

/-- C3 amended: when the context marker occurs after position 0, the loop
rewrites only matching lines with index i satisfying 2 ≤ i and
i + 1 < lines.length — the result is independent of the content of line
index 1 and of the last line (first conjunct), while matching lines in
the processed range are incorporated: the first becomes the prefix and
later ones are appended, each independently rewritten (second
conjunct). -/
theorem c3_rewrite_errors_processed_range :
    (∀ (ck : dlua_chunk) (sA sB : String) (LA LB : List String) (pA pB : Nat),
      split_string "\n" sA = LA → split_string "\n" sB = LB →
      firstMatch (contextm ck) sA.toList = some pA → pA ≠ 0 →
      firstMatch (contextm ck) sB.toList = some pB → pB ≠ 0 →
      LA.length = LB.length → LA.headD "" = LB.headD "" →
      (∀ i, 2 ≤ i → i + 1 < LA.length → LA.getD i "" = LB.getD i "") →
      rewrite_chunk_errors ck sA = rewrite_chunk_errors ck sB) ∧
    rewrite_chunk_errors ck_err_sample
      "err\nstack traceback:\n[string \"c\"]:3: bad\n[string \"c\"]:9: worse\ntail"
      = (true, "f.lua:7: err\nf.lua:13: worse") := by
  constructor
  · intro ck sA sB LA LB pA pB hsA hsB hfmA hpA hfmB hpB hLen hHead hEq
    simp only [ rewrite_chunk_errors, hfmA, hfmB, hsA, hsB]
    rw [if_neg hpA, if_neg hpB]
    rw [← hLen, ← hHead]
    have hfold := foldl_congr_mem (List.range' 2 (LA.length - 1 - 2))
      (fun (acc : String × Bool) (i : Nat) =>
        let st := LA.getD i ""
        if containsC st.toList ck.context.toList then
          if acc.2 then (acc.1 ++ "\n" ++ rewrite_chunk_prefix ck st, acc.2)
          else ( get_chunk_prefix ck st ++ ": " ++ acc.1, true)
        else acc)
      (fun (acc : String × Bool) (i : Nat) =>
        let st := LB.getD i ""
        if containsC st.toList ck.context.toList then
          if acc.2 then (acc.1 ++ "\n" ++ rewrite_chunk_prefix ck st, acc.2)
          else ( get_chunk_prefix ck st ++ ": " ++ acc.1, true)
        else acc)
      (LA.headD "", false) ?_
    · rw [hfold]
    · intro acc i hi
      obtain ⟨j, hj, hij⟩ := List.mem_range'.mp hi
      have h2 : 2 ≤ i := by omega
      have h4 : i + 1 < LA.length := by omega
      dsimp only
      rw [hEq i h2 h4]
  · decide

/-- C3 amended witness: two four-line messages agreeing on line 0 and on
the one processed index 2, but with different line 1 and last line (the
second even holds an extra context reference in its last line), rewrite
to the same message. -/
theorem c3_rewrite_errors_processed_range_witness :
    rewrite_chunk_errors ck_err_sample "err\nAAA x\n[string \"c\"]:3: bad\nt1"
      = rewrite_chunk_errors ck_err_sample
          "err\nBBB\n[string \"c\"]:3: bad\nt2 [string \"c\"]:9: x" := by
  refine c3_rewrite_errors_processed_range.1 ck_err_sample _ _
    ["err", "AAA x", "[string \"c\"]:3: bad", "t1"]
    ["err", "BBB", "[string \"c\"]:3: bad", "t2 [string \"c\"]:9: x"] 10 8
    (by decide) (by decide) (by decide) (by decide) (by decide) (by decide)
    (by decide) (by decide) ?_
  intro i h2 h4
  have : i = 2 := by
    simp only [List.length_cons, List.length_nil] at h4
    omega
  subst this
  decide

/-! C7: flood-fill connectivity. -/

theorem mem_cellsList (w h : Nat) (c : GCoord) : c ∈ cellsList w h ↔ inBoundsB w h c = true := by
  obtain ⟨cx, cy⟩ := c
  constructor
  · intro hmem
    rw [cellsList, List.mem_flatMap] at hmem
    obtain ⟨y, hy, hmem2⟩ := hmem
    rw [List.mem_map] at hmem2
    obtain ⟨x, hx, he⟩ := hmem2
    rw [List.mem_range] at hy hx
    rw [GCoord.mk.injEq] at he
    obtain ⟨e1, e2⟩ := he
    simp only [inBoundsB, Bool.and_eq_true, decide_eq_true_eq]
    simp only [Int.ofNat_eq_coe] at e1 e2
    omega
  · intro hb
    simp only [inBoundsB, Bool.and_eq_true, decide_eq_true_eq] at hb
    rw [cellsList, List.mem_flatMap]
    refine ⟨cy.toNat, ?_, ?_⟩
    · rw [List.mem_range]
      omega
    · rw [List.mem_map]
      refine ⟨cx.toNat, by rw [List.mem_range]; omega, ?_⟩
      rw [GCoord.mk.injEq]
      simp only [Int.ofNat_eq_coe]
      constructor
      · omega
      · omega

theorem cellsList_nodup (w h : Nat) : (cellsList w h).Nodup := by
  rw [cellsList, List.nodup_flatMap]
  constructor
  · intro y hy
    apply List.Nodup.map
    · intro a b hab
      rw [GCoord.mk.injEq] at hab
      simp only [Int.ofNat_eq_coe] at hab
      exact_mod_cast hab.1
    · exact List.nodup_range w
  · refine List.Pairwise.imp ?_ (List.nodup_range h)
    intro a b hab z hza hzb
    rw [List.mem_map] at hza hzb
    obtain ⟨x1, hx1, he1⟩ := hza
    obtain ⟨x2, hx2, he2⟩ := hzb
    apply hab
    rw [← he1, GCoord.mk.injEq] at he2
    simp only [Int.ofNat_eq_coe] at he2
    exact_mod_cast he2.2.symm

theorem nbrs_symm {c d : GCoord} (h : d ∈ nbrs c) : c ∈ nbrs d := by
  obtain ⟨cx, cy⟩ := c
  obtain ⟨dx, dy⟩ := d
  simp only [nbrs, List.mem_cons, List.mem_singleton, GCoord.mk.injEq,
    List.not_mem_nil, or_false] at h ⊢
  omega

theorem floodIter_pass (P : GCoord → Bool) (univ : List GCoord) (start : GCoord) :
    ∀ n c, c ∈ floodIter P univ start n → c ∈ univ ∧ P c = true := by
  intro n c h
  cases n with
  | zero =>
    rw [floodIter, List.mem_filter] at h
    refine ⟨h.1, ?_⟩
    have := h.2
    simp only [Bool.and_eq_true] at this
    exact this.1
  | succ n =>
    rw [floodIter, floodStep, List.mem_filter] at h
    refine ⟨h.1, ?_⟩
    have := h.2
    simp only [Bool.and_eq_true] at this
    exact this.1

theorem floodIter_mono (P : GCoord → Bool) (univ : List GCoord) (start : GCoord) (n : Nat) :
    ∀ c, c ∈ floodIter P univ start n → c ∈ floodIter P univ start (n + 1) := by
  intro c hc
  have hp := floodIter_pass P univ start n c hc
  show c ∈ floodStep P univ (floodIter P univ start n)
  rw [floodStep, List.mem_filter]
  refine ⟨hp.1, ?_⟩
  simp [hp.2, hc]

theorem floodIter_mono_le (P : GCoord → Bool) (univ : List GCoord) (start : GCoord)
    {m n : Nat} (hmn : m ≤ n) :
    ∀ c, c ∈ floodIter P univ start m → c ∈ floodIter P univ start n := by
  induction n with
  | zero =>
    intro c hc
    have : m = 0 := by omega
    rw [this] at hc
    exact hc
  | succ n ih =>
    intro c hc
    rcases Nat.lt_or_ge m (n + 1) with hlt | hge
    · exact floodIter_mono P univ start n c (ih (by omega) c hc)
    · have : m = n + 1 := by omega
      rw [this] at hc
      exact hc

theorem floodIter_nodup (P : GCoord → Bool) (univ : List GCoord) (start : GCoord)
    (hu : univ.Nodup) (n : Nat) : (floodIter P univ start n).Nodup := by
  cases n with
  | zero => exact List.Nodup.filter _ hu
  | succ n => exact List.Nodup.filter _ hu

theorem floodStep_congr (P : GCoord → Bool) (univ v w_ : List GCoord)
    (hvw : ∀ x, x ∈ v ↔ x ∈ w_) : floodStep P univ v = floodStep P univ w_ := by
  rw [floodStep, floodStep]
  apply List.filter_congr
  intro c hc
  have h1 : decide (c ∈ v) = decide (c ∈ w_) := decide_eq_decide.mpr (hvw c)
  have h2 : decide (∃ d ∈ nbrs c, d ∈ v) = decide (∃ d ∈ nbrs c, d ∈ w_) :=
    decide_eq_decide.mpr (by simp only [hvw])
  rw [h1, h2]

theorem floodIter_len_le (P : GCoord → Bool) (univ : List GCoord) (start : GCoord)
    (hu : univ.Nodup) (n : Nat) : (floodIter P univ start n).length ≤ univ.length := by
  have hsub : floodIter P univ start n ⊆ univ := by
    intro c hc
    exact (floodIter_pass P univ start n c hc).1
  exact (List.subperm_of_subset (floodIter_nodup P univ start hu n) hsub).length_le

theorem floodIter_stall_exists (P : GCoord → Bool) (univ : List GCoord) (start : GCoord)
    (hu : univ.Nodup) :
    ∃ k ≤ univ.length, ∀ x, x ∈ floodIter P univ start k ↔ x ∈ floodIter P univ start (k + 1) := by
  by_contra hcon
  push_neg at hcon
  have hgrow : ∀ k ≤ univ.length,
      (floodIter P univ start k).length + 1 ≤ (floodIter P univ start (k + 1)).length := by
    intro k hk
    obtain ⟨x, hx⟩ := hcon k hk
    have hxin : x ∈ floodIter P univ start (k + 1) ∧ x ∉ floodIter P univ start k := by
      rcases hx with ⟨h1, h2⟩ | ⟨h1, h2⟩
      · exact absurd (floodIter_mono P univ start k x h1) h2
      · exact ⟨h2, h1⟩
    have hns : (x :: floodIter P univ start k).Nodup :=
      List.nodup_cons.mpr ⟨hxin.2, floodIter_nodup P univ start hu k⟩
    have hsub : (x :: floodIter P univ start k) ⊆ floodIter P univ start (k + 1) := by
      intro z hz
      rcases List.mem_cons.mp hz with hz | hz
      · rw [hz]
        exact hxin.1
      · exact floodIter_mono P univ start k z hz
    have := (List.subperm_of_subset hns hsub).length_le
    simpa using this
  have hind : ∀ m, m ≤ univ.length + 1 → m ≤ (floodIter P univ start m).length := by
    intro m
    induction m with
    | zero => intro _; omega
    | succ m ih =>
      intro hm
      have h1 := ih (by omega)
      have h2 := hgrow m (by omega)
      omega
  have h1 := hind (univ.length + 1) (by omega)
  have h2 := floodIter_len_le P univ start hu (univ.length + 1)
  omega

theorem floodIter_stable (P : GCoord → Bool) (univ : List GCoord) (start : GCoord) (k : Nat)
    (hst : ∀ x, x ∈ floodIter P univ start k ↔ x ∈ floodIter P univ start (k + 1)) :
    ∀ j, floodIter P univ start (k + 1 + j) = floodIter P univ start (k + 1) := by
  have base2 : floodIter P univ start (k + 2) = floodIter P univ start (k + 1) := by
    show floodStep P univ (floodIter P univ start (k + 1)) = floodIter P univ start (k + 1)
    calc floodStep P univ (floodIter P univ start (k + 1))
        = floodStep P univ (floodIter P univ start k) :=
          floodStep_congr P univ _ _ (fun x => (hst x).symm)
      _ = floodIter P univ start (k + 1) := rfl
  intro j
  induction j with
  | zero => rfl
  | succ j ih =>
    have : k + 1 + (j + 1) = (k + 1 + j) + 1 := by omega
    rw [this]
    show floodStep P univ (floodIter P univ start (k + 1 + j)) = floodIter P univ start (k + 1)
    rw [ih]
    exact base2

theorem flood_fix (P : GCoord → Bool) (univ : List GCoord) (start : GCoord) (hu : univ.Nodup) :
    floodStep P univ (floodIter P univ start (univ.length + 1)) =
      floodIter P univ start (univ.length + 1) := by
  obtain ⟨k, hk, hstall⟩ := floodIter_stall_exists P univ start hu
  have hstab := floodIter_stable P univ start k hstall
  have e1 : floodIter P univ start (univ.length + 1) = floodIter P univ start (k + 1) := by
    have := hstab (univ.length - k)
    rw [show k + 1 + (univ.length - k) = univ.length + 1 by omega] at this
    exact this
  rw [e1]
  have := hstab 1
  rw [show k + 1 + 1 = k + 2 by omega] at this
  exact this

theorem flood_sound (P : GCoord → Bool) (univ : List GCoord) (start : GCoord) :
    ∀ n c, c ∈ floodIter P univ start n → FReach P start c := by
  intro n
  induction n with
  | zero =>
    intro c hc
    rw [floodIter, List.mem_filter] at hc
    have := hc.2
    simp only [Bool.and_eq_true, decide_eq_true_eq] at this
    rw [this.2]
    rw [this.2] at this
    exact FReach.base this.1
  | succ n ih =>
    intro c hc
    rw [floodIter, floodStep, List.mem_filter] at hc
    have h2 := hc.2
    simp only [Bool.and_eq_true, Bool.or_eq_true, decide_eq_true_eq] at h2
    rcases h2.2 with hin | ⟨d, hdn, hdv⟩
    · exact ih c hin
    · exact FReach.step (ih d hdv) (nbrs_symm hdn) h2.1

theorem flood_complete (P : GCoord → Bool) (univ : List GCoord) (start : GCoord)
    (hu : univ.Nodup) (hP : ∀ c, P c = true → c ∈ univ) :
    ∀ c, FReach P start c → c ∈ floodIter P univ start (univ.length + 1) := by
  intro c hr
  induction hr with
  | base hps =>
    have h0 : start ∈ floodIter P univ start 0 := by
      rw [floodIter, List.mem_filter]
      refine ⟨hP start hps, ?_⟩
      simp [hps]
    exact floodIter_mono_le P univ start (by omega) start h0
  | step hrc hdn hpd ih =>
    rw [← flood_fix P univ start hu]
    rw [floodStep, List.mem_filter]
    refine ⟨hP _ hpd, ?_⟩
    simp only [Bool.and_eq_true, Bool.or_eq_true, decide_eq_true_eq]
    exact ⟨hpd, Or.inr ⟨_, nbrs_symm hdn, ih⟩⟩

/-- C7: the connectivity check returns true exactly when every supplied
seed point is reachable from the start point across passable (in-bounds,
traversable) cells; on the fully traversable 3x3 grid the corner seeds
are all reported connected, and a full wall column at x = 1 makes the
two side seeds be reported disconnected. -/
theorem c7_points_connected_iff_reachable :
    (∀ (w h : Nat) (trav : GCoord → Bool) (start : GCoord) (seeds : List GCoord),
      points_connected w h trav start seeds = true ↔
        ∀ p ∈ seeds, FReach (passableB w h trav) start p) ∧
    points_connected 3 3 (fun _ => true) ⟨0, 0⟩ [⟨0, 0⟩, ⟨2, 2⟩, ⟨0, 2⟩, ⟨2, 0⟩] = true ∧
    points_connected 3 3 (fun c => decide (c.x ≠ 1)) ⟨0, 1⟩ [⟨0, 1⟩, ⟨2, 1⟩] = false := by
  refine ⟨?_, by decide, by decide⟩
  intro w h trav start seeds
  have hP : ∀ c, passableB w h trav c = true → c ∈ cellsList w h := by
    intro c hc
    rw [mem_cellsList]
    rw [passableB, Bool.and_eq_true] at hc
    exact hc.1
  simp only [points_connected, List.all_eq_true, decide_eq_true_eq, flood_reachable]
  constructor
  · intro hall p hp
    exact flood_sound (passableB w h trav) (cellsList w h) start _ p (hall p hp)
  · intro hr p hp
    exact flood_complete (passableB w h trav) (cellsList w h) start
      (cellsList_nodup w h) hP p (hr p hp)

/-- C7 witness: instantiating the equivalence at the traversable 3x3 grid
yields an actual reachability fact for the corner seed. -/
theorem c7_points_connected_iff_reachable_witness :
    FReach (passableB 3 3 (fun _ => true)) ⟨1, 1⟩ ⟨2, 2⟩ :=
  (c7_points_connected_iff_reachable.1 3 3 (fun _ => true) ⟨1, 1⟩ [⟨2, 2⟩]).mp
    (by decide) ⟨2, 2⟩ (by simp)

/-! C10: the add(line, text) accumulator. -/

theorem splitNl_ne_nil (l : List Char) : splitNl l ≠ [] := by
  cases l with
  | nil => simp [splitNl]
  | cons c t =>
    rw [splitNl]
    by_cases hc : c = '\n'
    · simp [hc]
    · rw [if_neg hc]
      cases h : splitNl t with
      | nil => simp
      | cons a r => simp

theorem splitNl_no_newline (l : List Char) (h : ∀ c ∈ l, c ≠ '\n') : splitNl l = [l] := by
  induction l with
  | nil => rfl
  | cons c t ih =>
    rw [splitNl, if_neg (h c (List.mem_cons_self c t)),
      ih (fun d hd => h d (List.mem_cons_of_mem c hd))]

theorem splitNl_append_newline (a b : List Char) :
    splitNl (a ++ '\n' :: b) = splitNl a ++ splitNl b := by
  induction a with
  | nil => simp [splitNl]
  | cons c t ih =>
    by_cases hc : c = '\n'
    · subst hc
      rw [List.cons_append, splitNl, if_pos rfl, ih]
      rw [splitNl, if_pos rfl]
      rfl
    · rw [List.cons_append, splitNl, if_neg hc, ih]
      rw [splitNl, if_neg hc]
      cases h : splitNl t with
      | nil => exact absurd h (splitNl_ne_nil t)
      | cons x r => simp

theorem splitNl_append_no_newline (a b : List Char) (h : ∀ c ∈ b, c ≠ '\n') :
    splitNl (a ++ b) = (splitNl a).dropLast ++ [(splitNl a).getLastD [] ++ b] := by
  induction a with
  | nil => simp [splitNl, splitNl_no_newline b h]
  | cons c t ih =>
    by_cases hc : c = '\n'
    · subst hc
      rw [List.cons_append, splitNl, if_pos rfl, ih]
      rw [splitNl, if_pos rfl]
      cases ht : splitNl t with
      | nil => exact absurd ht (splitNl_ne_nil t)
      | cons x r => simp
    · rw [List.cons_append, splitNl, if_neg hc, ih]
      rw [splitNl, if_neg hc]
      cases ht : splitNl t with
      | nil => exact absurd ht (splitNl_ne_nil t)
      | cons x r =>
        cases r with
        | nil => simp
        | cons y r2 => simp

theorem splitNl_replicate (k : Nat) (b : List Char) :
    splitNl (List.replicate k '\n' ++ b) = List.replicate k [] ++ splitNl b := by
  induction k with
  | zero => simp
  | succ k ih =>
    rw [List.replicate_succ, List.cons_append, splitNl, if_pos rfl, ih]
    rfl

theorem textAt_concat_ne (cs : List (Int × String)) (ln m : Int) (s : String) (h : m ≠ ln) :
    textAt (cs ++ [(ln, s)]) m = textAt cs m := by
  rw [textAt, textAt, List.filterMap_append]
  have : List.filterMap
      (fun c => if c.1 = m then some (' ' :: c.2.toList) else none) [(ln, s)] = [] := by
    have hne : ¬((ln, s).1 = m) := fun he => h he.symm
    simp [hne]
  rw [this, List.append_nil]

theorem textAt_concat_eq (cs : List (Int × String)) (ln : Int) (s : String) :
    textAt (cs ++ [(ln, s)]) ln = textAt cs ln ++ ' ' :: s.toList := by
  rw [textAt, textAt, List.filterMap_append, List.flatten_append]
  simp

theorem textAt_gt (cs : List (Int × String)) (l m : Int) (hall : ∀ c ∈ cs, c.1 ≤ l)
    (hm : l < m) : textAt cs m = [] := by
  rw [textAt]
  have : List.filterMap (fun c => if c.1 = m then some (' ' :: c.2.toList) else none) cs = [] := by
    rw [List.filterMap_eq_nil_iff]
    intro c hc
    have := hall c hc
    have hne : ¬(c.1 = m) := by omega
    simp [hne]
  rw [this]
  rfl

theorem nondec_le_last (cs : List (Int × String)) (hch : nondecLines cs) :
    ∀ c ∈ cs, c.1 ≤ lastLine cs := by
  induction cs with
  | nil => intro c hc; exact absurd hc (List.not_mem_nil c)
  | cons x t ih =>
    intro c hc
    cases t with
    | nil =>
      rw [List.mem_singleton] at hc
      rw [hc]
      rfl
    | cons y t2 =>
      have hch2 : nondecLines (y :: t2) := (List.chain'_cons.mp hch).2
      have hxy : x.1 ≤ y.1 := (List.chain'_cons.mp hch).1
      have hlast : lastLine (x :: y :: t2) = lastLine (y :: t2) := by
        rw [lastLine, lastLine]
        rfl
      rcases List.mem_cons.mp hc with hcx | hct
      · rw [hcx] at *
        rw [hlast]
        have := ih hch2 y (List.mem_cons_self y t2)
        omega
      · rw [hlast]
        exact ih hch2 c hct

theorem dlua_add_fields (c : dlua_chunk) (ln : Int) (s : String) :
    (dlua_add c ln s).first = (if c.first = -1 then ln else c.first) ∧
    (dlua_add c ln s).last = ln ∧
    (dlua_add c ln s).chunk.toList = c.chunk.toList ++
      List.replicate (if ln ≠ c.last ∧ c.last ≠ -1 then (ln - c.last).toNat else 0) '\n'
      ++ ' ' :: s.toList := by
  refine ⟨rfl, rfl, ?_⟩
  have hsp : (" " : String).toList = [' '] := rfl
  simp only [dlua_add, toList_append, toList_mk, hsp]
  simp [List.append_assoc]

theorem addAll_concat (st : dlua_chunk) (cs : List (Int × String)) (a : Int × String) :
    addAll st (cs ++ [a]) = dlua_add (addAll st cs) a.1 a.2 := by
  rw [addAll, addAll, List.foldl_append]
  rfl

theorem headLine_concat (cs : List (Int × String)) (a : Int × String) (h : cs ≠ []) :
    headLine (cs ++ [a]) = headLine cs := by
  cases cs with
  | nil => exact absurd rfl h
  | cons x t => rfl

theorem lastLine_concat (cs : List (Int × String)) (a : Int × String) :
    lastLine (cs ++ [a]) = a.1 := by
  rw [lastLine, List.getLastD_concat]

theorem addAll_core : ∀ (cs : List (Int × String)) (ctx : String),
    cs ≠ [] → nondecLines cs → nonnegLines cs → singleLineTexts cs →
    (addAll (mk_dlua_chunk ctx) cs).first = headLine cs ∧
    (addAll (mk_dlua_chunk ctx) cs).last = lastLine cs ∧
    headLine cs ≤ lastLine cs ∧
    splitNl (addAll (mk_dlua_chunk ctx) cs).chunk.toList
      = expectedLines cs (headLine cs) (lastLine cs) := by
  intro cs
  induction cs using List.reverseRecOn with
  | nil => intro ctx hne _ _ _; exact absurd rfl hne
  | append_singleton cs' a ih =>
    intro ctx _ hch hnn hsl
    obtain ⟨ln, s⟩ := a
    have hnoNl : ∀ c ∈ ' ' :: s.toList, c ≠ '\n' := by
      intro c hc
      rcases List.mem_cons.mp hc with hc | hc
      · rw [hc]; decide
      · exact hsl (ln, s) (by simp) c hc
    by_cases hcs' : cs' = []
    · subst hcs'
      have hf := (dlua_add_fields (mk_dlua_chunk ctx) ln s).1
      have hl := (dlua_add_fields (mk_dlua_chunk ctx) ln s).2.1
      have hc := (dlua_add_fields (mk_dlua_chunk ctx) ln s).2.2
      rw [List.nil_append]
      have e1 : addAll (mk_dlua_chunk ctx) [(ln, s)] = dlua_add (mk_dlua_chunk ctx) ln s := rfl
      rw [e1]
      have hfirst : (dlua_add (mk_dlua_chunk ctx) ln s).first = ln := by
        rw [hf]; rfl
      have hlast : (dlua_add (mk_dlua_chunk ctx) ln s).last = ln := hl
      have hnls : (if ln ≠ (mk_dlua_chunk ctx).last ∧ (mk_dlua_chunk ctx).last ≠ -1
          then (ln - (mk_dlua_chunk ctx).last).toNat else 0) = 0 := by
        have : ¬(ln ≠ (mk_dlua_chunk ctx).last ∧ (mk_dlua_chunk ctx).last ≠ -1) := by
          intro ⟨_, h2⟩
          exact h2 rfl
        rw [if_neg this]
      rw [hnls] at hc
      have hchunk : (dlua_add (mk_dlua_chunk ctx) ln s).chunk.toList = ' ' :: s.toList := by
        rw [hc]; rfl
      refine ⟨by rw [hfirst]; rfl, by rw [hlast]; rfl, le_refl _, ?_⟩
      rw [hchunk, splitNl_no_newline _ hnoNl]
      show [' ' :: s.toList] = expectedLines [(ln, s)] ln ln
      rw [expectedLines]
      have : (ln - ln + 1).toNat = 1 := by omega
      rw [this]
      show [' ' :: s.toList] = [textAt [(ln, s)] (ln + Int.ofNat 0)]
      rw [textAt]
      simp
    · have hne' : cs' ≠ [] := hcs'
      have hch' : nondecLines cs' := (List.chain'_append.mp hch).1
      have hnn' : nonnegLines cs' := fun c hc => hnn c (List.mem_append_left _ hc)
      have hsl' : singleLineTexts cs' := fun c hc => hsl c (List.mem_append_left _ hc)
      obtain ⟨ihf, ihl, ihle, ihsp⟩ := ih ctx hne' hch' hnn' hsl'
      set st := addAll (mk_dlua_chunk ctx) cs' with hst
      set f := headLine cs' with hfdef
      set l := lastLine cs' with hldef
      have hlidx : l ≤ ln := by
        have h3 := (List.chain'_append.mp hch).2.2
        have hgl : cs'.getLast? = some (cs'.getLast hne') := List.getLast?_eq_getLast cs' hne'
        have := h3 (cs'.getLast hne') (by rw [hgl]; exact Option.mem_def.mpr rfl) (ln, s)
          (Option.mem_def.mpr rfl)
        have hll : (cs'.getLast hne').1 = l := by
          rw [hldef, lastLine, List.getLastD_eq_getLast?, hgl]
          rfl
        rw [hll] at this
        exact this
      have hf0 : 0 ≤ f := by
        have : cs'.headD (0, "") ∈ cs' := by
          cases cs' with
          | nil => exact absurd rfl hne'
          | cons x t => exact List.mem_cons_self x t
        exact hnn _ (List.mem_append_left _ this)
      have hall_le : ∀ c ∈ cs', c.1 ≤ l := nondec_le_last cs' hch'
      have hfirst' : (addAll (mk_dlua_chunk ctx) (cs' ++ [(ln, s)])).first = f := by
        rw [addAll_concat, (dlua_add_fields st ln s).1, ihf]
        have : ¬(f = -1) := by omega
        rw [if_neg this]
      have hlast' : (addAll (mk_dlua_chunk ctx) (cs' ++ [(ln, s)])).last = ln :=
        (addAll_concat _ _ _ ▸ (dlua_add_fields st ln s).2.1)
      refine ⟨by rw [hfirst', headLine_concat cs' _ hne'], by rw [hlast', lastLine_concat],
        by rw [headLine_concat cs' _ hne', lastLine_concat]; omega, ?_⟩
      rw [headLine_concat cs' _ hne', lastLine_concat, addAll_concat,
        (dlua_add_fields st ln s).2.2, ihl]
      by_cases heq : ln = l
      · -- same line: text is appended to the last physical line
        have hnls : (if ln ≠ l ∧ l ≠ -1 then (ln - l).toNat else 0) = 0 := by
          rw [if_neg]
          intro ⟨h1, _⟩
          exact h1 heq
        rw [hnls]
        rw [show List.replicate 0 '\n' = ([] : List Char) from rfl, List.append_nil]
        rw [splitNl_append_no_newline _ _ hnoNl, ihsp]
        rw [show ((ln, s).1 : Int) = ln from rfl, heq]
        have hn1 : (l - f + 1).toNat = (l - f).toNat + 1 := by omega
        rw [expectedLines, expectedLines, hn1, List.range_succ, List.map_append,
          List.map_append]
        simp only [List.map_cons, List.map_nil]
        rw [List.dropLast_concat, List.getLastD_concat]
        have hlm : f + Int.ofNat (l - f).toNat = l := by
          simp only [Int.ofNat_eq_coe]
          omega
        congr 1
        · apply List.map_congr_left
          intro k hk
          rw [List.mem_range] at hk
          have hkne : f + Int.ofNat k ≠ l := by
            simp only [Int.ofNat_eq_coe]
            omega
          rw [textAt_concat_ne _ _ _ _ hkne]
        · rw [hlm, textAt_concat_eq]
      · -- strictly greater line: d newlines then the text on a fresh line
        have hlt : l < ln := by omega
        have hnls : (if ln ≠ l ∧ l ≠ -1 then (ln - l).toNat else 0) = (ln - l).toNat := by
          rw [if_pos]
          exact ⟨heq, by omega⟩
        rw [hnls]
        have hd1 : (ln - l).toNat = ((ln - l).toNat - 1) + 1 := by omega
        set d1 := (ln - l).toNat - 1 with hd1def
        rw [hd1, List.replicate_succ]
        show splitNl (st.chunk.toList ++ ('\n' :: List.replicate d1 '\n') ++ ' ' :: s.toList)
          = _
        rw [List.append_assoc, List.cons_append, splitNl_append_newline,
          splitNl_replicate, splitNl_no_newline _ hnoNl, ihsp]
        have hcount : (ln - f + 1).toNat = (l - f + 1).toNat + (d1 + 1) := by omega
        rw [expectedLines, expectedLines, hcount, List.range_add, List.map_append]
        congr 1
        · apply List.map_congr_left
          intro k hk
          rw [List.mem_range] at hk
          have hkne : f + Int.ofNat k ≠ ln := by
            simp only [Int.ofNat_eq_coe]
            omega
          rw [textAt_concat_ne _ _ _ _ hkne]
        · rw [List.range_succ, List.map_append, List.map_append]
          simp only [List.map_cons, List.map_nil]
          congr 1
          · -- the d1 blank physical lines
            rw [List.map_map]
            symm
            apply List.eq_replicate_iff.mpr
            refine ⟨by simp, ?_⟩
            intro b hb
            rw [List.mem_map] at hb
            obtain ⟨j, hj, hbe⟩ := hb
            rw [List.mem_range] at hj
            rw [← hbe]
            show textAt (cs' ++ [(ln, s)]) (f + Int.ofNat ((l - f + 1).toNat + j)) = []
            have hgt : l < f + Int.ofNat ((l - f + 1).toNat + j) := by
              simp only [Int.ofNat_eq_coe]
              push_cast
              omega
            have hne2 : f + Int.ofNat ((l - f + 1).toNat + j) ≠ ln := by
              simp only [Int.ofNat_eq_coe]
              push_cast
              omega
            rw [textAt_concat_ne _ _ _ _ hne2]
            exact textAt_gt cs' l _ hall_le hgt
          · -- the final physical line holding the new text
            show [' ' :: s.toList] = [textAt (cs' ++ [(ln, s)])
              (f + Int.ofNat ((l - f + 1).toNat + d1))]
            have hlnx : f + Int.ofNat ((l - f + 1).toNat + d1) = ln := by
              simp only [Int.ofNat_eq_coe]
              push_cast
              omega
            rw [hlnx, textAt_concat_eq, textAt_gt cs' l ln hall_le hlt]
            rfl

/-- C10 amended: over any run of add calls with nonnegative,
nondecreasing line numbers and newline-free texts on a cleared chunk:
(1) first equals the line number of the first call and never changes;
(2) a call whose line number exceeds the previous call's line inserts
exactly (new line - previous line) newline characters before its text;
(3) the k-th physical line of the stored source (1-based) holds exactly
the text material added at authored line first + k - 1 (each piece
prefixed by the separating space the code inserts). -/
theorem c10_add_accumulates_lines :
    (∀ (cs : List (Int × String)) (ctx : String), cs ≠ [] → nondecLines cs →
      nonnegLines cs → singleLineTexts cs →
      (addAll (mk_dlua_chunk ctx) cs).first = headLine cs) ∧
    (∀ (st : dlua_chunk) (ln : Int) (s : String), st.last ≠ -1 → st.last < ln →
      (dlua_add st ln s).chunk =
        st.chunk ++ String.mk (List.replicate (ln - st.last).toNat '\n') ++ " " ++ s) ∧
    (∀ (cs : List (Int × String)) (ctx : String), cs ≠ [] → nondecLines cs →
      nonnegLines cs → singleLineTexts cs →
      physLines (addAll (mk_dlua_chunk ctx) cs)
        = expectedLines cs (headLine cs) (lastLine cs)) := by
  refine ⟨?_, ?_, ?_⟩
  · intro cs ctx h1 h2 h3 h4
    exact (addAll_core cs ctx h1 h2 h3 h4).1
  · intro st ln s h1 h2
    show st.chunk ++ String.mk (List.replicate
        (if ln ≠ st.last ∧ st.last ≠ -1 then (ln - st.last).toNat else 0) '\n') ++ " " ++ s
      = st.chunk ++ String.mk (List.replicate (ln - st.last).toNat '\n') ++ " " ++ s
    rw [if_pos ⟨by omega, h1⟩]
  · intro cs ctx h1 h2 h3 h4
    exact (addAll_core cs ctx h1 h2 h3 h4).2.2.2

/-- C10 counterexample: the claim as stated fails twice on the code.
With the nondecreasing call sequence (-1, a), (3, b) the first call's
line is -1, yet first ends up 3 (the sentinel makes the second call
overwrite it). And a single call at line 1 whose text contains a
newline is stored across two physical lines, so physical line 2 does
not hold the text authored at line 2 (nothing was authored there). -/
theorem c10_counterexample :
    (addAll (mk_dlua_chunk "c") [(-1, "a"), (3, "b")]).first = 3 ∧
    ¬((addAll (mk_dlua_chunk "c") [(-1, "a"), (3, "b")]).first = -1) ∧
    physLines (addAll (mk_dlua_chunk "c") [(1, "a\nb")]) = [[' ', 'a'], ['b']] ∧
    textAt [(1, "a\nb")] 2 = [] := by
  refine ⟨by decide, by decide, by decide, by decide⟩

/-- C10 amended witness: three concrete calls, two on line 2 and one on
line 4, produce first = 2 and physical lines matching the expected
per-authored-line contents. -/
theorem c10_add_accumulates_lines_witness :
    (addAll (mk_dlua_chunk "c") [(2, "a"), (2, "b"), (4, "c")]).first = 2 ∧
    physLines (addAll (mk_dlua_chunk "c") [(2, "a"), (2, "b"), (4, "c")])
      = expectedLines [(2, "a"), (2, "b"), (4, "c")] 2 4 := by
  have hA := c10_add_accumulates_lines.1 [(2, "a"), (2, "b"), (4, "c")] "c"
    (by decide) (by unfold nondecLines; simp [List.chain'_cons]) (by unfold nonnegLines; decide)
    (by unfold singleLineTexts; decide)
  have hC := c10_add_accumulates_lines.2.2 [(2, "a"), (2, "b"), (4, "c")] "c"
    (by decide) (by unfold nondecLines; simp [List.chain'_cons]) (by unfold nonnegLines; decide)
    (by unfold singleLineTexts; decide)
  exact ⟨hA, hC⟩
